import Mathlib

/-!
Verification development for the RFP document ingestion-and-classification
pipeline.  The data model and the operations below follow the repository:
the chunking, classification, orchestration and coordination components are
modelled from the specification (the Python pipeline sources are not part of
the checked-in tree; only their configuration files are), while the
`addRecentDocument` reducer and the API-client response interceptor are
translated from the TypeScript sources.
-/

namespace RFP

/-! ## Chunker: spans and tiling -/

/-- A chunk's character span inside the normalized document text:
start offset (inclusive) and stop offset (exclusive). -/
structure Span where
  start : Nat
  stop : Nat
deriving Repr, DecidableEq

/-- Length in characters of a span. -/
def Span.len (s : Span) : Nat := s.stop - s.start

/-- `Tiles lo hi spans` states that `spans`, in order, exactly cover the
half-open interval `[lo, hi)`: each span is non-empty, starts where the
previous one stopped, the first starts at `lo` and the last stops at `hi`.
This is the "no gaps, no overlaps, ordered" coverage property. -/
def Tiles : Nat → Nat → List Span → Prop
  | lo, hi, [] => lo = hi
  | lo, hi, s :: rest => s.start = lo ∧ lo < s.stop ∧ Tiles s.stop hi rest

/-- Modelled from the spec: structural cut offsets are normalized before
use — restricted to the interior of the text, de-duplicated and sorted —
so that chunk boundaries do not depend on the order in which the
extraction stage reported the hints. -/
def normalizeCuts (n : Nat) (cuts : List Nat) : List Nat :=
  ((cuts.filter (fun c => decide (0 < c) && decide (c < n))).dedup).insertionSort (· ≤ ·)

/-- Modelled from the spec: cut the interval `[lo, n)` at the given
(sorted, interior) cut offsets, producing the initial segments. -/
def segmentsFrom (lo n : Nat) : List Nat → List Span
  | [] => [⟨lo, n⟩]
  | c :: rest => ⟨lo, c⟩ :: segmentsFrom c n rest

/-- The largest sentence-boundary offset strictly after `start` and not
exceeding `limit`, if any. -/
def bestBoundary (start limit : Nat) : List Nat → Option Nat
  | [] => none
  | b :: rest =>
    let r := bestBoundary start limit rest
    if start < b ∧ b ≤ limit then
      match r with
      | none => some b
      | some c => some (max b c)
    else r

/-- Modelled from the spec: an oversize segment is split "at the nearest
sentence boundary not exceeding the limit"; when no sentence boundary is
usable the cut is placed at the limit itself. -/
def bestCut (start limit : Nat) (sbs : List Nat) : Nat :=
  (bestBoundary start limit sbs).getD limit

/-- Modelled from the spec: repeatedly split a segment that exceeds
`M = max_chunk_size` at the best available cut.  The fuel argument is a
structural bound on the recursion; `s.len` fuel always suffices because
every cut strictly advances. -/
def splitSpanFuel (M : Nat) (sbs : List Nat) : Nat → Span → List Span
  | 0, s => [s]
  | fuel + 1, s =>
    if M = 0 then [s]
    else if s.stop - s.start ≤ M then [s]
    else
      let c := bestCut s.start (s.start + M) sbs
      ⟨s.start, c⟩ :: splitSpanFuel M sbs fuel ⟨c, s.stop⟩

/-- Split one segment into segments of length at most `M`. -/
def splitSpan (M : Nat) (sbs : List Nat) (s : Span) : List Span :=
  splitSpanFuel M sbs s.len s

/-- Split every oversize segment of the list. -/
def splitAll (M : Nat) (sbs : List Nat) (spans : List Span) : List Span :=
  (spans.map (splitSpan M sbs)).flatten

/-- Modelled from the spec: a segment below `m = min_chunk_size` "is merged
with the following segment"; merging concatenates adjacent spans, and the
merged span is re-examined. `cur` is the segment currently being built. -/
def mergeFwd (m : Nat) : Span → List Span → List Span
  | cur, [] => [cur]
  | cur, t :: rest =>
    if cur.len < m then mergeFwd m ⟨cur.start, t.stop⟩ rest
    else cur :: mergeFwd m t rest

/-- Forward merge pass over a whole segment list. -/
def mergeFwdAll (m : Nat) : List Span → List Span
  | [] => []
  | s :: rest => mergeFwd m s rest

/-- Modelled from the spec: "the last segment merges with the previous one
instead" when it is below the minimum size. -/
def mergeLast (m : Nat) : List Span → List Span
  | [] => []
  | [s] => [s]
  | [a, b] => if b.len < m then [⟨a.start, b.stop⟩] else [a, b]
  | a :: b :: c :: rest => a :: mergeLast m (b :: c :: rest)

/-- Chunking strategy, from `preprocessing.chunk_strategy` in the
configuration. -/
inductive Strategy
  | «section»
  | paragraph
  | heading
deriving Repr, DecidableEq

/-- Structural hints supplied by the Format Extractor: heading markers,
section numbers, blank-line offsets and sentence boundaries, all given as
character offsets into the normalized text. -/
structure StructuralHints where
  headingOffsets : List Nat
  sectionOffsets : List Nat
  blankLineOffsets : List Nat
  sentenceOffsets : List Nat
deriving Repr, DecidableEq

/-- The cut offsets a given strategy uses: structural boundaries for the
`section` and `heading` strategies, blank-line boundaries for `paragraph`. -/
def cutsFor : Strategy → StructuralHints → List Nat
  | .«section», h => h.sectionOffsets
  | .heading, h => h.headingOffsets
  | .paragraph, h => h.blankLineOffsets

/-- Modelled from the spec (§4.2): cut the text of length `n` at the
strategy's boundaries, split segments exceeding `M = max_chunk_size` at
sentence boundaries, then merge segments below `m = min_chunk_size` with
the following segment (the last with the previous one instead). -/
def chunkSpans (m M n : Nat) (cuts sbs : List Nat) : List Span :=
  if n = 0 then []
  else mergeLast m (mergeFwdAll m (splitAll M sbs (segmentsFrom 0 n (normalizeCuts n cuts))))

/-- A chunk: owning document id, 0-based index, text, character offsets
into the source text, and the strategy that produced it. -/
structure Chunk where
  docId : Nat
  index : Nat
  text : List Char
  start : Nat
  stop : Nat
  strategy : Strategy
deriving Repr, DecidableEq

/-- The Chunker: produce the ordered chunks of one document. -/
def chunkDocument (m M : Nat) (strategy : Strategy) (hints : StructuralHints)
    (docId : Nat) (text : List Char) : List Chunk :=
  (chunkSpans m M text.length (cutsFor strategy hints) hints.sentenceOffsets).enum.map
    fun p => ⟨docId, p.1, (text.drop p.2.start).take p.2.len, p.2.start, p.2.stop, strategy⟩

/-! ## Tiling lemmas for the Chunker -/

theorem tiles_append {lo mid hi : Nat} :
    ∀ {l₁ l₂ : List Span}, Tiles lo mid l₁ → Tiles mid hi l₂ → Tiles lo hi (l₁ ++ l₂)
  | [], _, h₁, h₂ => by
      cases h₁; simpa using h₂
  | s :: rest, l₂, h₁, h₂ => by
      obtain ⟨hs, hlt, ht⟩ := h₁
      exact ⟨hs, hlt, tiles_append ht h₂⟩

theorem tiles_le {hi : Nat} : ∀ {l : List Span} {lo : Nat}, Tiles lo hi l → lo ≤ hi
  | [], _, h => le_of_eq h
  | _ :: _, _, h => le_trans (le_of_lt h.2.1) (tiles_le h.2.2)

theorem tiles_segmentsFrom :
    ∀ (cuts : List Nat) (lo n : Nat), lo < n → (∀ c ∈ cuts, lo < c ∧ c < n) →
      List.Sorted (· < ·) cuts → Tiles lo n (segmentsFrom lo n cuts)
  | [], lo, n, hlt, _, _ => ⟨rfl, hlt, rfl⟩
  | c :: rest, lo, n, _, hmem, hsort => by
      obtain ⟨hc1, hc2⟩ := hmem c (by simp)
      refine ⟨rfl, hc1, tiles_segmentsFrom rest c n hc2 ?_ hsort.of_cons⟩
      intro x hx
      exact ⟨(List.sorted_cons.mp hsort).1 x hx, (hmem x (by simp [hx])).2⟩

theorem bestBoundary_bounds :
    ∀ (sbs : List Nat) {start limit b : Nat},
      bestBoundary start limit sbs = some b → start < b ∧ b ≤ limit
  | [], _, _, _, h => by simp [bestBoundary] at h
  | x :: rest, start, limit, b, h => by
      by_cases hx : start < x ∧ x ≤ limit
      · rcases hr : bestBoundary start limit rest with _ | c
        · simp [bestBoundary, hr, hx] at h
          omega
        · obtain ⟨hc1, hc2⟩ := bestBoundary_bounds rest hr
          simp [bestBoundary, hr, hx] at h
          omega
      · simp only [bestBoundary, if_neg hx] at h
        exact bestBoundary_bounds rest h

theorem bestCut_bounds (start limit : Nat) (sbs : List Nat) (h : start < limit) :
    start < bestCut start limit sbs ∧ bestCut start limit sbs ≤ limit := by
  unfold bestCut
  rcases hr : bestBoundary start limit sbs with _ | b
  · simp [h]
  · simpa using bestBoundary_bounds sbs hr

theorem tiles_splitSpanFuel (M : Nat) (sbs : List Nat) :
    ∀ (fuel : Nat) (s : Span), s.start < s.stop →
      Tiles s.start s.stop (splitSpanFuel M sbs fuel s)
  | 0, s, hs => ⟨rfl, hs, rfl⟩
  | fuel + 1, s, hs => by
      by_cases hM : M = 0
      · exact by simp only [splitSpanFuel, if_pos hM]; exact ⟨rfl, hs, rfl⟩
      · by_cases hle : s.stop - s.start ≤ M
        · simp only [splitSpanFuel, if_neg hM, if_pos hle]
          exact ⟨rfl, hs, rfl⟩
        · simp only [splitSpanFuel, if_neg hM, if_neg hle]
          obtain ⟨hc1, hc2⟩ :=
            bestCut_bounds s.start (s.start + M) sbs (by omega)
          refine ⟨rfl, hc1, ?_⟩
          exact tiles_splitSpanFuel M sbs fuel ⟨bestCut s.start (s.start + M) sbs, s.stop⟩
            (by simp only [Span.len] at *; omega)

theorem tiles_splitSpan (M : Nat) (sbs : List Nat) (s : Span) (hs : s.start < s.stop) :
    Tiles s.start s.stop (splitSpan M sbs s) :=
  tiles_splitSpanFuel M sbs s.len s hs

theorem tiles_splitAll (M : Nat) (sbs : List Nat) :
    ∀ (spans : List Span) (lo hi : Nat), Tiles lo hi spans →
      Tiles lo hi (splitAll M sbs spans)
  | [], _, _, h => h
  | s :: rest, lo, hi, h => by
      obtain ⟨hs, hlt, ht⟩ := h
      have h₁ : Tiles lo s.stop (splitSpan M sbs s) := by
        have := tiles_splitSpan M sbs s (by omega)
        rwa [hs] at this
      have h₂ := tiles_splitAll M sbs rest s.stop hi ht
      simpa [splitAll] using tiles_append h₁ h₂

theorem tiles_mergeFwd (m : Nat) :
    ∀ (rest : List Span) (cur : Span) (hi : Nat), cur.start < cur.stop →
      Tiles cur.stop hi rest → Tiles cur.start hi (mergeFwd m cur rest)
  | [], cur, hi, hc, ht => ⟨rfl, hc, ht⟩
  | t :: rest, cur, hi, hc, ht => by
      obtain ⟨hs, hlt, htl⟩ := ht
      by_cases hm : cur.len < m
      · simp only [mergeFwd, if_pos hm]
        exact tiles_mergeFwd m rest ⟨cur.start, t.stop⟩ hi (by simp; omega)
          (by simpa using htl)
      · simp only [mergeFwd, if_neg hm]
        refine ⟨rfl, hc, ?_⟩
        have := tiles_mergeFwd m rest t hi (by omega) htl
        rwa [hs] at this

theorem tiles_mergeFwdAll (m : Nat) (spans : List Span) (lo hi : Nat)
    (h : Tiles lo hi spans) : Tiles lo hi (mergeFwdAll m spans) := by
  cases spans with
  | nil => exact h
  | cons s rest =>
      obtain ⟨hs, hlt, ht⟩ := h
      have := tiles_mergeFwd m rest s hi (by omega) ht
      rwa [hs] at this

theorem tiles_mergeLast (m : Nat) :
    ∀ (l : List Span) (lo hi : Nat), Tiles lo hi l → Tiles lo hi (mergeLast m l)
  | [], _, _, h => h
  | [_], _, _, h => h
  | [a, b], lo, hi, h => by
      obtain ⟨ha, hal, hb, hbl, hstop⟩ := h
      by_cases hm : b.len < m
      · simp only [mergeLast, if_pos hm]
        exact ⟨ha, show lo < b.stop by omega, hstop⟩
      · simp only [mergeLast, if_neg hm]
        exact ⟨ha, hal, hb, hbl, hstop⟩
  | a :: b :: c :: rest, lo, hi, h => by
      obtain ⟨ha, hal, ht⟩ := h
      exact ⟨ha, hal, tiles_mergeLast m (b :: c :: rest) a.stop hi ht⟩

theorem normalizeCuts_sorted (n : Nat) (cuts : List Nat) :
    List.Sorted (· < ·) (normalizeCuts n cuts) := by
  have hs : List.Sorted (· ≤ ·) (normalizeCuts n cuts) :=
    List.sorted_insertionSort _ _
  refine hs.lt_of_le ?_
  exact (List.perm_insertionSort _ _).nodup_iff.mpr
    (List.nodup_dedup _)

theorem normalizeCuts_mem (n : Nat) (cuts : List Nat) :
    ∀ c ∈ normalizeCuts n cuts, 0 < c ∧ c < n := by
  intro c hc
  have : c ∈ (cuts.filter (fun c => decide (0 < c) && decide (c < n))).dedup :=
    (List.perm_insertionSort _ _).mem_iff.mp hc
  have := List.of_mem_filter (List.mem_dedup.mp this)
  simp at this
  exact this

theorem tiles_chunkSpans (m M n : Nat) (cuts sbs : List Nat) :
    Tiles 0 n (chunkSpans m M n cuts sbs) := by
  by_cases hn : n = 0
  · simp [chunkSpans, hn, Tiles]
  · simp only [chunkSpans, if_neg hn]
    refine tiles_mergeLast m _ 0 n (tiles_mergeFwdAll m _ 0 n (tiles_splitAll M sbs _ 0 n ?_))
    exact tiles_segmentsFrom (normalizeCuts n cuts) 0 n (by omega)
      (normalizeCuts_mem n cuts) (normalizeCuts_sorted n cuts)

theorem tiles_lo_le {hi : Nat} :
    ∀ {l : List Span} {lo : Nat}, Tiles lo hi l → ∀ s ∈ l, lo ≤ s.start
  | [], _, _, s, hs => by simp at hs
  | t :: rest, lo, h, s, hs => by
      rcases List.mem_cons.mp hs with rfl | hs'
      · exact le_of_eq h.1.symm
      · exact le_trans (le_of_lt (h.1 ▸ h.2.1)) (tiles_lo_le h.2.2 s hs')

theorem tiles_pairwise {hi : Nat} :
    ∀ {l : List Span} {lo : Nat}, Tiles lo hi l →
      l.Pairwise (fun a b => a.stop ≤ b.start)
  | [], _, _ => List.Pairwise.nil
  | t :: rest, lo, h => by
      refine List.pairwise_cons.mpr ⟨fun s hs => tiles_lo_le h.2.2 s hs, ?_⟩
      exact tiles_pairwise h.2.2

theorem tiles_concat (text : List Char) :
    ∀ (l : List Span) (lo hi : Nat), Tiles lo hi l → hi ≤ text.length →
      ((l.map fun s => (text.drop s.start).take s.len).flatten) =
        (text.drop lo).take (hi - lo)
  | [], lo, hi, h, _ => by
      cases h; simp
  | s :: rest, lo, hi, h, hle => by
      obtain ⟨hs, hlt, ht⟩ := h
      have hstop : s.stop ≤ hi := tiles_le ht
      have ih := tiles_concat text rest s.stop hi ht hle
      simp only [Span.len] at ih ⊢
      simp only [List.map_cons, List.flatten_cons, ih, hs]
      have h1 : (text.drop lo).take ((s.stop - lo) + (hi - s.stop)) =
          (text.drop lo).take (s.stop - lo) ++
            ((text.drop lo).drop (s.stop - lo)).take (hi - s.stop) :=
        List.take_add ..
      have h2 : (text.drop lo).drop (s.stop - lo) = text.drop s.stop := by
        rw [List.drop_drop]
        congr 1
        omega
      rw [h2] at h1
      have h3 : (s.stop - lo) + (hi - s.stop) = hi - lo := by omega
      rw [h3] at h1
      exact h1.symm

/-- C1: for every document, the chunks produced by the Chunker are ordered
and non-overlapping, and the union of their spans covers the full
normalized text exactly once — no gaps and no overlaps (merge operations
only concatenate adjacent spans, so tiling is preserved through them):
the spans tile `[0, length)`, they are pairwise ordered/disjoint, and the
concatenation of the chunk texts reconstructs the document text. -/
theorem chunker_coverage (m M : Nat) (strategy : Strategy) (hints : StructuralHints)
    (docId : Nat) (text : List Char) :
    Tiles 0 text.length
        (chunkSpans m M text.length (cutsFor strategy hints) hints.sentenceOffsets) ∧
      (chunkSpans m M text.length (cutsFor strategy hints)
          hints.sentenceOffsets).Pairwise (fun a b => a.stop ≤ b.start) ∧
      ((chunkDocument m M strategy hints docId text).map Chunk.text).flatten = text := by
  have ht := tiles_chunkSpans m M text.length (cutsFor strategy hints) hints.sentenceOffsets
  refine ⟨ht, tiles_pairwise ht, ?_⟩
  have hc := tiles_concat text _ 0 text.length ht (le_refl _)
  simp only [List.drop_zero, Nat.sub_zero, List.take_length] at hc
  have key : ∀ (l : List Span),
      ((l.enum.map fun p : Nat × Span =>
          Chunk.mk docId p.1 ((text.drop p.2.start).take p.2.len) p.2.start p.2.stop
            strategy).map Chunk.text) =
        l.map (fun s => (text.drop s.start).take s.len) := by
    intro l
    rw [List.map_map]
    have hfun : (Chunk.text ∘ fun p : Nat × Span =>
        Chunk.mk docId p.1 ((text.drop p.2.start).take p.2.len) p.2.start p.2.stop
          strategy) = ((fun s : Span => (text.drop s.start).take s.len) ∘ Prod.snd) := by
      funext p; rfl
    rw [hfun, ← List.map_map, List.enum_map_snd]
  calc ((chunkDocument m M strategy hints docId text).map Chunk.text).flatten
      = ((chunkSpans m M text.length (cutsFor strategy hints)
            hints.sentenceOffsets).map fun s => (text.drop s.start).take s.len).flatten := by
          simp only [chunkDocument]
          rw [key]
    _ = text := hc

/-! ## Chunk size bounds -/

theorem splitSpanFuel_le (M : Nat) (sbs : List Nat) (hM : 0 < M) :
    ∀ (fuel : Nat) (s : Span), s.len ≤ fuel →
      ∀ x ∈ splitSpanFuel M sbs fuel s, x.len ≤ M
  | 0, s, hf, x, hx => by
      simp only [splitSpanFuel, List.mem_singleton] at hx
      subst hx
      omega
  | fuel + 1, s, hf, x, hx => by
      by_cases hle : s.stop - s.start ≤ M
      · simp only [splitSpanFuel, if_neg (by omega : ¬ M = 0), if_pos hle,
          List.mem_singleton] at hx
        subst hx
        simpa [Span.len] using hle
      · simp only [splitSpanFuel, if_neg (by omega : ¬ M = 0), if_neg hle,
          List.mem_cons] at hx
        obtain ⟨hc1, hc2⟩ := bestCut_bounds s.start (s.start + M) sbs (by omega)
        rcases hx with rfl | hx'
        · simp only [Span.len]
          omega
        · refine splitSpanFuel_le M sbs hM fuel _ ?_ x hx'
          simp only [Span.len] at hf ⊢
          omega

theorem splitAll_le (M : Nat) (sbs : List Nat) (hM : 0 < M) (spans : List Span) :
    ∀ x ∈ splitAll M sbs spans, x.len ≤ M := by
  intro x hx
  simp only [splitAll, List.mem_flatten, List.mem_map] at hx
  obtain ⟨l, ⟨s, _, rfl⟩, hxl⟩ := hx
  exact splitSpanFuel_le M sbs hM s.len s (le_refl _) x hxl

theorem mergeFwd_ne_nil (m : Nat) : ∀ (rest : List Span) (cur : Span),
    mergeFwd m cur rest ≠ []
  | [], cur => by simp [mergeFwd]
  | t :: rest, cur => by
      by_cases hm : cur.len < m
      · simp only [mergeFwd, if_pos hm]
        exact mergeFwd_ne_nil m rest _
      · simp [mergeFwd, if_neg hm]

theorem mergeFwd_bounds (m M hi : Nat) (hm : 0 < m) :
    ∀ (rest : List Span) (cur : Span), Tiles cur.stop hi rest →
      (∀ x ∈ rest, x.len ≤ M) → cur.len ≤ M + m - 1 → cur.start < cur.stop →
      (∀ x ∈ (mergeFwd m cur rest).dropLast, m ≤ x.len) ∧
      (∀ x ∈ mergeFwd m cur rest, x.len ≤ M + m - 1)
  | [], cur, ht, hr, hcur, hss => by
      constructor
      · intro x hx
        simp [mergeFwd] at hx
      · intro x hx
        simp only [mergeFwd, List.mem_singleton] at hx
        subst hx
        exact hcur
  | t :: rest, cur, ht, hr, hcur, hss => by
      obtain ⟨hts, htl, htr⟩ := ht
      have htle : t.len ≤ M := hr t (by simp)
      by_cases hmm : cur.len < m
      · simp only [mergeFwd, if_pos hmm]
        refine mergeFwd_bounds m M hi hm rest ⟨cur.start, t.stop⟩ (by simpa using htr)
          (fun x hx => hr x (by simp [hx])) ?_ (by simp only; simp only [Span.len] at *; omega)
        simp only [Span.len] at *
        omega
      · simp only [mergeFwd, if_neg hmm]
        obtain ⟨ih1, ih2⟩ := mergeFwd_bounds m M hi hm rest t htr
          (fun x hx => hr x (by simp [hx])) (by omega) (by omega)
        constructor
        · intro x hx
          rw [List.dropLast_cons_of_ne_nil (mergeFwd_ne_nil m rest t)] at hx
          rcases List.mem_cons.mp hx with rfl | hx'
          · omega
          · exact ih1 x hx'
        · intro x hx
          rcases List.mem_cons.mp hx with rfl | hx'
          · exact hcur
          · exact ih2 x hx'

theorem mergeLast_ne_nil (m : Nat) :
    ∀ (l : List Span), l ≠ [] → mergeLast m l ≠ []
  | [], h => absurd rfl h
  | [s], _ => by simp [mergeLast]
  | [a, b], _ => by
      by_cases hm : b.len < m <;> simp [mergeLast, hm]
  | a :: b :: c :: rest, _ => by simp [mergeLast]

theorem mergeLast_dropLast_subset (m : Nat) :
    ∀ (l : List Span), ∀ x ∈ (mergeLast m l).dropLast, x ∈ l.dropLast
  | [], x, hx => by simp [mergeLast] at hx
  | [s], x, hx => by simp [mergeLast] at hx
  | [a, b], x, hx => by
      by_cases hm : b.len < m
      · simp [mergeLast, hm] at hx
      · simpa [mergeLast, hm] using hx
  | a :: b :: c :: rest, x, hx => by
      simp only [mergeLast] at hx
      rw [List.dropLast_cons_of_ne_nil (mergeLast_ne_nil m (b :: c :: rest) (by simp))] at hx
      rcases List.mem_cons.mp hx with rfl | hx'
      · simp [List.dropLast_cons_of_ne_nil]
      · have := mergeLast_dropLast_subset m (b :: c :: rest) x hx'
        rw [List.dropLast_cons_of_ne_nil (by simp : (b :: c :: rest : List Span) ≠ [])]
        exact List.mem_cons_of_mem a this

/-- C2 (amended): with the configured bounds positive, every chunk except
the document's final one satisfies
`min_chunk_size ≤ len ≤ max_chunk_size + min_chunk_size - 1`: the lower
bound is exactly the claimed one, but merging an undersized segment into
the following one can push a non-final chunk past `max_chunk_size`, up to
`min_chunk_size - 1` characters beyond it. -/
theorem chunk_bounds_amended (m M n : Nat) (cuts sbs : List Nat)
    (hm : 0 < m) (hM : 0 < M) :
    ∀ x ∈ (chunkSpans m M n cuts sbs).dropLast,
      m ≤ x.len ∧ x.len ≤ M + m - 1 := by
  intro x hx
  by_cases hn : n = 0
  · simp [chunkSpans, hn] at hx
  · simp only [chunkSpans, if_neg hn] at hx
    have htiles : Tiles 0 n (segmentsFrom 0 n (normalizeCuts n cuts)) :=
      tiles_segmentsFrom (normalizeCuts n cuts) 0 n (by omega)
        (normalizeCuts_mem n cuts) (normalizeCuts_sorted n cuts)
    have hsplit := tiles_splitAll M sbs _ 0 n htiles
    have hle := splitAll_le M sbs hM (segmentsFrom 0 n (normalizeCuts n cuts))
    have hx' := mergeLast_dropLast_subset m _ x hx
    rcases hsa : splitAll M sbs (segmentsFrom 0 n (normalizeCuts n cuts)) with _ | ⟨s, rest⟩
    · rw [hsa] at hx'
      simp [mergeFwdAll] at hx'
    · rw [hsa] at hx' hsplit
      obtain ⟨hs0, hslt, hst⟩ := hsplit
      have hsle : s.len ≤ M := by
        refine hle s ?_
        rw [hsa]
        simp
      obtain ⟨h1, h2⟩ := mergeFwd_bounds m M n hm rest s hst
        (fun y hy => hle y (by rw [hsa]; simp [hy])) (by omega) (by omega)
      simp only [mergeFwdAll] at hx'
      exact ⟨h1 x hx', h2 x (List.dropLast_subset _ hx')⟩

/-- C2 is refuted on the modelled Chunker: with `min_chunk_size = 100` and
`max_chunk_size = 4000`, a document of 4250 characters cut at offsets 50
and 4050 yields a first (non-final) chunk of 4050 characters — the merge
of an undersized 50-character segment into the following 4000-character
one — which exceeds `max_chunk_size`. -/
theorem chunk_bounds_counterexample :
    chunkSpans 100 4000 4250 [50, 4050] [] = [⟨0, 4050⟩, ⟨4050, 4250⟩] ∧
      ¬ (∀ x ∈ (chunkSpans 100 4000 4250 [50, 4050] []).dropLast,
          100 ≤ x.len ∧ x.len ≤ 4000) := by
  constructor
  · decide
  · decide

/-- Witness for the amended C2 theorem at a concrete configuration. -/
theorem chunk_bounds_amended_witness :
    100 ≤ (Span.mk 0 4050).len ∧ (Span.mk 0 4050).len ≤ 4000 + 100 - 1 :=
  chunk_bounds_amended 100 4000 4250 [50, 4050] [] (by decide) (by decide)
    ⟨0, 4050⟩ (by decide)

/-! ## Chunker determinism -/

theorem normalizeCuts_perm (n : Nat) {cuts1 cuts2 : List Nat} (h : cuts1.Perm cuts2) :
    normalizeCuts n cuts1 = normalizeCuts n cuts2 := by
  unfold normalizeCuts
  refine List.eq_of_perm_of_sorted ?_ (List.sorted_insertionSort _ _)
    (List.sorted_insertionSort _ _)
  exact (List.perm_insertionSort _ _).trans
    (((h.filter _).dedup).trans (List.perm_insertionSort _ _).symm)

/-- C3: the Chunker is deterministic.  Re-running it on identical input
yields identical chunks, and the boundaries depend only on the set of
structural cut offsets, not on the order in which the extraction stage
reported them: permuting the reported cut list leaves every chunk
boundary byte-identical. -/
theorem chunker_deterministic (m M : Nat) (strategy : Strategy)
    (docId : Nat) (text : List Char) (n : Nat) (cuts1 cuts2 sbs : List Nat)
    (hperm : cuts1.Perm cuts2) :
    chunkDocument m M strategy ⟨cuts1, cuts1, cuts1, sbs⟩ docId text =
        chunkDocument m M strategy ⟨cuts1, cuts1, cuts1, sbs⟩ docId text ∧
      chunkSpans m M n cuts1 sbs = chunkSpans m M n cuts2 sbs := by
  refine ⟨rfl, ?_⟩
  unfold chunkSpans
  rw [normalizeCuts_perm n hperm]

/-- Witness for the determinism theorem: two differently-ordered hint
lists over the same offsets produce the same chunk boundaries. -/
theorem chunker_deterministic_witness :
    chunkSpans 1 3 5 [3, 1] [] = chunkSpans 1 3 5 [1, 3] [] :=
  (chunker_deterministic 1 3 .paragraph 0 [] 5 [3, 1] [1, 3] [] (by decide)).2

/-! ## Metadata Extractor -/

/-- Does `needle` occur contiguously inside the first list? -/
def containsSub : List Char → List Char → Bool
  | [], needle => needle.isEmpty
  | c :: t, needle => needle.isPrefixOf (c :: t) || containsSub t needle

/-- `industry_keywords.healthcare` from `config/config.yaml`. -/
def healthcareKeywords : List String :=
  ["patient", "clinical", "hospital", "medical", "healthcare", "HIPAA", "EHR", "EMR",
   "provider", "telehealth"]

/-- `industry_keywords.finance` from `config/config.yaml`. -/
def financeKeywords : List String :=
  ["banking", "investment", "financial", "portfolio", "transaction", "regulatory",
   "compliance", "audit", "risk", "SOX"]

/-- `industry_keywords.construction` from `config/config.yaml`. -/
def constructionKeywords : List String :=
  ["building", "construction", "contractor", "architectural", "engineering", "project",
   "safety", "OSHA", "bid", "schedule"]

/-- `industry_keywords.manufacturing` from `config/config.yaml`. -/
def manufacturingKeywords : List String :=
  ["production", "assembly", "supply chain", "quality", "inventory", "procurement",
   "logistics", "ISO", "lean", "automation"]

/-- `industry_keywords.technology` from `config/config.yaml`. -/
def technologyKeywords : List String :=
  ["software", "hardware", "network", "cloud", "security", "integration", "API", "SaaS",
   "database", "infrastructure"]

/-- `industry_keywords.government` from `config/config.yaml`. -/
def governmentKeywords : List String :=
  ["public sector", "agency", "municipal", "federal", "procurement", "RFP", "bidding",
   "contract", "compliance", "regulation"]

/-- `industry_keywords.education` from `config/config.yaml`. -/
def educationKeywords : List String :=
  ["academic", "education", "school", "university", "student", "learning", "curriculum",
   "faculty", "research", "FERPA"]

/-- The per-industry keyword table, in configuration order. -/
def industryKeywordTable : List (String × List String) :=
  [("healthcare", healthcareKeywords), ("finance", financeKeywords),
   ("construction", constructionKeywords), ("manufacturing", manufacturingKeywords),
   ("technology", technologyKeywords), ("government", governmentKeywords),
   ("education", educationKeywords)]

/-- Modelled from the spec: scan the document text for each keyword variant
of the rule and count the distinct variants that occur. -/
def countMatches (kws : List String) (text : List Char) : Nat :=
  kws.foldl (fun acc k => if containsSub text k.toList then acc + 1 else acc) 0

/-- Modelled from the spec: a rule matching `k` distinct keyword variants
contributes confidence `min(1.0, k / keyword_set_size)`. -/
def ruleConfidence (kws : List String) (text : List Char) : ℚ :=
  min 1 ((countMatches kws text : ℚ) / (kws.length : ℚ))

/-- A scored metadata field: field name, value, source rule, confidence. -/
structure ExtractedMetadataField where
  name : String
  value : String
  source : String
  confidence : ℚ
deriving Repr, DecidableEq

/-- Modelled from the spec: the rule-based extractor emits one `industry`
field per industry rule, scored by `ruleConfidence`. -/
def industryFields (table : List (String × List String)) (text : List Char) :
    List ExtractedMetadataField :=
  table.map fun p => ⟨"industry", p.1, "keyword-rule:" ++ p.1, ruleConfidence p.2 text⟩

/-! ## Taxonomy Classifier -/

/-- One candidate taxonomy node with its aggregated score and the number
of matched keyword rules. -/
structure NodeScore where
  id : String
  score : ℚ
  matched : Nat
deriving Repr, DecidableEq

/-- Modelled from the spec: the tie-break comparison.  `prefOver a b` holds
when `a` beats `b`: higher score first, then more matched keyword rules,
then the lexicographically smaller node id. -/
def prefOver (a b : NodeScore) : Bool :=
  if b.score < a.score then true
  else if a.score < b.score then false
  else if b.matched < a.matched then true
  else if a.matched < b.matched then false
  else decide (a.id.toList < b.id.toList)

/-- Select the preferred node among `best :: rest`. -/
def selectTop : NodeScore → List NodeScore → NodeScore
  | best, [] => best
  | best, c :: rest => selectTop (if prefOver c best then c else best) rest

/-- A classification result: ranked nodes, chosen top node and method. -/
structure ClassificationResult where
  docId : Nat
  ranked : List (String × ℚ)
  topNode : String
  method : String
deriving Repr, DecidableEq

/-- Modelled from the spec: pick the preferred node among the scored
candidates; if no candidate scores above the configured floor the document
resolves to the reserved `unclassified` node. -/
def classifyScores (docId : Nat) (floor : ℚ) : List NodeScore → ClassificationResult
  | [] => ⟨docId, [], "unclassified", "rule-based"⟩
  | s :: rest =>
      if floor < (selectTop s rest).score then
        ⟨docId, (s :: rest).map fun x => (x.id, x.score), (selectTop s rest).id,
          "rule-based"⟩
      else ⟨docId, (s :: rest).map fun x => (x.id, x.score), "unclassified", "rule-based"⟩

/-- Score every industry node of the keyword table against the text. -/
def industryScores (table : List (String × List String)) (text : List Char) :
    List NodeScore :=
  table.map fun p => ⟨p.1, ruleConfidence p.2 text, countMatches p.2 text⟩

/-- Rule-based classification of a document against the industry table. -/
def classify (docId : Nat) (floor : ℚ) (table : List (String × List String))
    (text : List Char) : ClassificationResult :=
  classifyScores docId floor (industryScores table text)

/-- The scenario document text from the spec: it contains the healthcare
keywords "HIPAA", "clinical" (inside "clinical trial") and "patient" and
no other industry keyword. -/
def scenarioText : List Char := "HIPAA clinical trial patient".toList

/-! ## Metadata confidence -/

theorem countMatches_eq (kws : List String) (text : List Char) :
    countMatches kws text = (kws.filter fun k => containsSub text k.toList).length := by
  unfold countMatches
  suffices h : ∀ (l : List String) (acc : Nat),
      l.foldl (fun acc k => if containsSub text k.toList then acc + 1 else acc) acc =
        acc + (l.filter fun k => containsSub text k.toList).length by
    simpa using h kws 0
  intro l
  induction l with
  | nil => simp
  | cons a t ih =>
      intro acc
      simp only [String.toList] at ih ⊢
      by_cases ha : containsSub text a.data = true
      · simp only [List.foldl_cons, List.filter_cons, ha, if_true, ih, List.length_cons]
        omega
      · simp [List.foldl_cons, List.filter_cons, ha, ih]

theorem ruleConfidence_eval (kws : List String) (text : List Char) (c n : Nat)
    (hc : countMatches kws text = c) (hn : kws.length = n) :
    ruleConfidence kws text = min 1 ((c : ℚ) / (n : ℚ)) := by
  unfold ruleConfidence
  rw [hc, hn]

theorem scenario_scores :
    industryScores industryKeywordTable scenarioText =
      [⟨"healthcare", 3/10, 3⟩, ⟨"finance", 0, 0⟩, ⟨"construction", 0, 0⟩,
       ⟨"manufacturing", 0, 0⟩, ⟨"technology", 0, 0⟩, ⟨"government", 0, 0⟩,
       ⟨"education", 0, 0⟩] := by
  have h1 : countMatches healthcareKeywords scenarioText = 3 := by decide
  have h2 : countMatches financeKeywords scenarioText = 0 := by decide
  have h3 : countMatches constructionKeywords scenarioText = 0 := by decide
  have h4 : countMatches manufacturingKeywords scenarioText = 0 := by decide
  have h5 : countMatches technologyKeywords scenarioText = 0 := by decide
  have h6 : countMatches governmentKeywords scenarioText = 0 := by decide
  have h7 : countMatches educationKeywords scenarioText = 0 := by decide
  simp only [industryScores, industryKeywordTable, List.map_cons, List.map_nil,
    ruleConfidence, h1, h2, h3, h4, h5, h6, h7]
  norm_num [healthcareKeywords, financeKeywords, constructionKeywords,
    manufacturingKeywords, technologyKeywords, governmentKeywords, educationKeywords]

theorem scenario_selectTop :
    selectTop ⟨"healthcare", 3/10, 3⟩
      [⟨"finance", 0, 0⟩, ⟨"construction", 0, 0⟩, ⟨"manufacturing", 0, 0⟩,
       ⟨"technology", 0, 0⟩, ⟨"government", 0, 0⟩, ⟨"education", 0, 0⟩] =
      ⟨"healthcare", 3/10, 3⟩ := by
  have hpref : ∀ (i : String) (m : Nat),
      prefOver ⟨i, 0, m⟩ ⟨"healthcare", 3/10, 3⟩ = false := by
    intro i m
    unfold prefOver
    norm_num
  simp [selectTop, hpref]

/-- C4: a rule matching `k` distinct keyword variants contributes
confidence exactly `min(1, k / keyword_set_size)`, and on the scenario
document — three of the ten configured healthcare keywords, no other
industry's keywords — the healthcare rule scores 3/10 = 0.3, every other
industry rule scores 0, the top node is healthcare and the method is
rule-based. -/
theorem rule_confidence_formula :
    (∀ (kws : List String) (text : List Char),
        ruleConfidence kws text =
          min 1 (((kws.filter fun k => containsSub text k.toList).length : ℚ) /
            (kws.length : ℚ))) ∧
      ruleConfidence healthcareKeywords scenarioText = 3 / 10 ∧
      (∀ p ∈ industryKeywordTable, p.1 ≠ "healthcare" →
        ruleConfidence p.2 scenarioText = 0) ∧
      (classify 0 0 industryKeywordTable scenarioText).topNode = "healthcare" ∧
      (classify 0 0 industryKeywordTable scenarioText).method = "rule-based" := by
  have hclassify : classify 0 0 industryKeywordTable scenarioText =
      ⟨0, (industryScores industryKeywordTable scenarioText).map fun x => (x.id, x.score),
        "healthcare", "rule-based"⟩ := by
    unfold classify
    rw [scenario_scores]
    simp only [classifyScores]
    rw [scenario_selectTop]
    norm_num
  refine ⟨?_, ?_, ?_, ?_, ?_⟩
  · intro kws text
    unfold ruleConfidence
    rw [countMatches_eq]
  · rw [ruleConfidence_eval healthcareKeywords scenarioText 3 10 (by decide) (by decide)]
    norm_num
  · intro p hp hne
    simp only [industryKeywordTable, List.mem_cons, List.not_mem_nil, or_false] at hp
    rcases hp with rfl | rfl | rfl | rfl | rfl | rfl | rfl
    · exact absurd rfl hne
    · rw [ruleConfidence_eval financeKeywords scenarioText 0 10 (by decide) (by decide)]
      norm_num
    · rw [ruleConfidence_eval constructionKeywords scenarioText 0 10 (by decide) (by decide)]
      norm_num
    · rw [ruleConfidence_eval manufacturingKeywords scenarioText 0 10 (by decide) (by decide)]
      norm_num
    · rw [ruleConfidence_eval technologyKeywords scenarioText 0 10 (by decide) (by decide)]
      norm_num
    · rw [ruleConfidence_eval governmentKeywords scenarioText 0 10 (by decide) (by decide)]
      norm_num
    · rw [ruleConfidence_eval educationKeywords scenarioText 0 10 (by decide) (by decide)]
      norm_num
  · rw [hclassify]
  · rw [hclassify]

/-- Witness instantiating the quantified parts of the confidence theorem:
the finance rule, which matches no keyword of the scenario document,
contributes confidence 0. -/
theorem rule_confidence_formula_witness :
    ruleConfidence financeKeywords scenarioText = 0 :=
  rule_confidence_formula.2.2.1 ("finance", financeKeywords)
    (by simp [industryKeywordTable]) (by decide)

/-! ## Classifier tie-break order -/

/-- The tie-break preference as a proposition: `PrefRel a b` holds when
`a` strictly beats `b` — higher score, then more matched keyword rules,
then the lexicographically smaller node id. -/
def PrefRel (a b : NodeScore) : Prop :=
  b.score < a.score ∨
    (a.score = b.score ∧
      (b.matched < a.matched ∨
        (a.matched = b.matched ∧ a.id.toList < b.id.toList)))

/-- Equality of the three comparison components. -/
def KeyEq (a b : NodeScore) : Prop :=
  a.score = b.score ∧ a.matched = b.matched ∧ a.id = b.id

theorem prefOver_iff (a b : NodeScore) : prefOver a b = true ↔ PrefRel a b := by
  unfold prefOver PrefRel
  split_ifs with h1 h2 h3 h4 <;>
    simp only [decide_eq_true_eq, true_iff, false_iff, iff_true, iff_false]
  · exact Or.inl h1
  · rintro (h | ⟨heq, _⟩)
    · exact absurd h (not_lt.mpr (le_of_lt h2))
    · exact absurd heq (ne_of_lt h2)
  · exact Or.inr ⟨le_antisymm (not_lt.mp h1) (not_lt.mp h2), Or.inl h3⟩
  · rintro (h | ⟨heq, h | ⟨hm, _⟩⟩)
    · exact h1 h
    · omega
    · omega
  · constructor
    · intro hlt
      exact Or.inr ⟨le_antisymm (not_lt.mp h1) (not_lt.mp h2),
        Or.inr ⟨by omega, hlt⟩⟩
    · rintro (h | ⟨heq, h | ⟨hm, hlt⟩⟩)
      · exact absurd h h1
      · exact absurd h h3
      · exact hlt

theorem prefRel_irrefl (a : NodeScore) : ¬ PrefRel a a := by
  unfold PrefRel
  rintro (h | ⟨_, h | ⟨_, h⟩⟩) <;> exact lt_irrefl _ h

theorem prefRel_asymm {a b : NodeScore} (h : PrefRel a b) (h' : PrefRel b a) : False := by
  unfold PrefRel at h h'
  rcases h with h | ⟨he, h⟩ <;> rcases h' with h' | ⟨he', h'⟩
  · exact lt_asymm h h'
  · rw [he'] at h
    exact lt_irrefl _ h
  · rw [he] at h'
    exact lt_irrefl _ h'
  · rcases h with h | ⟨hm, h⟩ <;> rcases h' with h' | ⟨hm', h'⟩
    · omega
    · omega
    · omega
    · exact lt_asymm h h'

theorem prefRel_trans {a b c : NodeScore} (h : PrefRel a b) (h' : PrefRel b c) :
    PrefRel a c := by
  unfold PrefRel at h h' ⊢
  rcases h with h | ⟨he, h⟩ <;> rcases h' with h' | ⟨he', h'⟩
  · exact Or.inl (lt_trans h' h)
  · exact Or.inl (he' ▸ h)
  · exact Or.inl (by rw [he]; exact h')
  · refine Or.inr ⟨he.trans he', ?_⟩
    rcases h with h | ⟨hm, h⟩ <;> rcases h' with h' | ⟨hm', h'⟩
    · exact Or.inl (lt_trans h' h)
    · exact Or.inl (by omega)
    · exact Or.inl (by omega)
    · exact Or.inr ⟨by omega, lt_trans h h'⟩

theorem prefRel_trichotomy (a b : NodeScore) :
    PrefRel a b ∨ PrefRel b a ∨ KeyEq a b := by
  unfold PrefRel KeyEq
  rcases lt_trichotomy a.score b.score with h | h | h
  · exact Or.inr (Or.inl (Or.inl h))
  · rcases lt_trichotomy a.matched b.matched with hm | hm | hm
    · exact Or.inr (Or.inl (Or.inr ⟨h.symm, Or.inl hm⟩))
    · rcases lt_trichotomy a.id.toList b.id.toList with hi | hi | hi
      · exact Or.inl (Or.inr ⟨h, Or.inr ⟨hm, hi⟩⟩)
      · exact Or.inr (Or.inr ⟨h, hm, String.ext hi⟩)
      · exact Or.inr (Or.inl (Or.inr ⟨h.symm, Or.inr ⟨hm.symm, hi⟩⟩))
    · exact Or.inl (Or.inr ⟨h, Or.inl hm⟩)
  · exact Or.inl (Or.inl h)

theorem keyEq_prefRel_left {a a' b : NodeScore} (h : KeyEq a a') (hp : PrefRel a b) :
    PrefRel a' b := by
  unfold PrefRel at hp ⊢
  rw [← h.1, ← h.2.1, ← h.2.2]
  exact hp

theorem selectTop_mem : ∀ (rest : List NodeScore) (best : NodeScore),
    selectTop best rest ∈ best :: rest
  | [], best => by simp [selectTop]
  | c :: rest, best => by
      simp only [selectTop]
      by_cases h : prefOver c best = true
      · rw [if_pos h]
        rcases List.mem_cons.mp (selectTop_mem rest c) with h' | h'
        · simp [h']
        · simp [List.mem_cons, h']
      · rw [if_neg h]
        rcases List.mem_cons.mp (selectTop_mem rest best) with h' | h'
        · simp [h']
        · simp [List.mem_cons, h']

theorem selectTop_not_beaten :
    ∀ (rest : List NodeScore) (best x : NodeScore), x ∈ best :: rest →
      ¬ PrefRel x (selectTop best rest)
  | [], best, x, hx => by
      simp only [List.mem_singleton] at hx
      subst hx
      simpa [selectTop] using prefRel_irrefl x
  | c :: rest, best, x, hx => by
      simp only [selectTop]
      by_cases h : prefOver c best = true
      · rw [if_pos h]
        have hcb : PrefRel c best := (prefOver_iff c best).mp h
        rcases List.mem_cons.mp hx with rfl | hx'
        · intro hbr
          exact selectTop_not_beaten rest c c (by simp) (prefRel_trans hcb hbr)
        · exact selectTop_not_beaten rest c x hx'
      · rw [if_neg h]
        have hncb : ¬ PrefRel c best := fun hp => h ((prefOver_iff c best).mpr hp)
        rcases List.mem_cons.mp hx with rfl | hx'
        · exact selectTop_not_beaten rest x x (by simp)
        · rcases List.mem_cons.mp hx' with rfl | hx''
          · intro hcr
            rcases prefRel_trichotomy x best with hcb | hbc | hkey
            · exact hncb hcb
            · exact selectTop_not_beaten rest best best (by simp)
                (prefRel_trans hbc hcr)
            · exact selectTop_not_beaten rest best best (by simp)
                (keyEq_prefRel_left hkey hcr)
          · exact selectTop_not_beaten rest best x (by simp [hx''])

/-- C5: the Taxonomy Classifier's tie-break comparison — highest score,
then more matched keyword rules, then lexicographic node id — is total on
candidates with distinct ids, the selected top node is a candidate beaten
by no other candidate, any candidate beaten by no other equals the
selected one (uniqueness and determinism of the choice), and when the
selected node clears the floor it becomes the result's top node. -/
theorem classifier_top_unique (floor : ℚ) (docId : Nat) (best : NodeScore)
    (rest : List NodeScore)
    (hnodup : ((best :: rest).map NodeScore.id).Nodup) :
    (∀ a b : NodeScore, a.id ≠ b.id → PrefRel a b ∨ PrefRel b a) ∧
      selectTop best rest ∈ best :: rest ∧
      (∀ x ∈ best :: rest, ¬ PrefRel x (selectTop best rest)) ∧
      (∀ y ∈ best :: rest, (∀ x ∈ best :: rest, ¬ PrefRel x y) →
        y = selectTop best rest) ∧
      (floor < (selectTop best rest).score →
        (classifyScores docId floor (best :: rest)).topNode =
          (selectTop best rest).id) := by
  refine ⟨?_, selectTop_mem rest best, selectTop_not_beaten rest best, ?_, ?_⟩
  · intro a b hab
    rcases prefRel_trichotomy a b with h | h | hkey
    · exact Or.inl h
    · exact Or.inr h
    · exact absurd hkey.2.2 hab
  · intro y hy hmax
    have hsmem := selectTop_mem rest best
    have h1 : ¬ PrefRel (selectTop best rest) y := hmax _ hsmem
    have h2 : ¬ PrefRel y (selectTop best rest) :=
      selectTop_not_beaten rest best y hy
    rcases prefRel_trichotomy y (selectTop best rest) with h | h | hkey
    · exact absurd h h2
    · exact absurd h h1
    · exact List.inj_on_of_nodup_map hnodup hy hsmem hkey.2.2
  · intro hfloor
    simp only [classifyScores]
    rw [if_pos hfloor]

/-- Witness for the classifier theorem: two candidates with equal scores;
the one with more matched keyword rules is selected and becomes the top
node. -/
theorem classifier_top_unique_witness :
    (classifyScores 7 0 [⟨"alpha", 1, 2⟩, ⟨"beta", 1, 3⟩]).topNode =
      (selectTop ⟨"alpha", 1, 2⟩ [⟨"beta", 1, 3⟩]).id :=
  (classifier_top_unique 0 7 ⟨"alpha", 1, 2⟩ [⟨"beta", 1, 3⟩]
    (by decide)).2.2.2.2 (by norm_num [selectTop, prefOver])

/-! ## LLM Orchestrator -/

/-- Outcome of a single provider call: success with a payload, a transient
failure (timeout, rate-limit, 5xx-equivalent), or a non-transient one. -/
inductive Outcome
  | success (payload : String)
  | transient
  | fatal
deriving Repr, DecidableEq

/-- `LLMTaskSpec`: one named enrichment task's configuration, as in the
LLM integration config file. -/
structure LLMTaskSpec where
  name : String
  enabled : Bool
  model : String
  temperature : ℚ
  maxTokens : Nat
  timeout : Nat
  maxRetries : Nat
  retryDelay : Nat

/-- Task states of the per-(task, document) state machine. -/
inductive TaskState
  | pending
  | inFlight
  | retrying
  | succeeded
  | failed
  | skipped
deriving Repr, DecidableEq

/-- `LLMTaskResult`: outcome of one task for one document, with the
retry count, the number of provider calls issued, the waits inserted
between attempts and the visited state trace. -/
structure LLMTaskResult where
  task : String
  docId : Nat
  status : TaskState
  retryCount : Nat
  calls : Nat
  delays : List Nat
  trace : List TaskState
  output : Option String
deriving Repr, DecidableEq

/-- Intermediate result of the retry loop. -/
structure LoopOut where
  status : TaskState
  retryCount : Nat
  output : Option String
  delays : List Nat
  trace : List TaskState
deriving Repr, DecidableEq

/-- Modelled from the spec: the retry loop.  `r` is the current retry
count (attempt `r + 1` is being issued); a transient failure while
`r < maxR` waits the fixed `delay` and re-enters IN_FLIGHT, otherwise the
task fails; the fuel bounds the recursion and `maxR + 1` attempts always
suffice. -/
def runLoop (maxR delay : Nat) (provider : Nat → Outcome) : Nat → Nat → LoopOut
  | 0, r => ⟨.failed, r, none, [], [.inFlight]⟩
  | fuel + 1, r =>
    match provider r with
    | .success p => ⟨.succeeded, r, some p, [], [.inFlight, .succeeded]⟩
    | .fatal => ⟨.failed, r, none, [], [.inFlight, .failed]⟩
    | .transient =>
        if r < maxR then
          let res := runLoop maxR delay provider fuel (r + 1)
          ⟨res.status, res.retryCount, res.output, delay :: res.delays,
            .inFlight :: .retrying :: res.trace⟩
        else ⟨.failed, r, none, [], [.inFlight, .failed]⟩

/-- Modelled from the spec: run one task for one document.  The `enabled`
check precedes every other state transition; a disabled task is SKIPPED
with no provider call. -/
def runTask (spec : LLMTaskSpec) (provider : Nat → Outcome) (docId : Nat) :
    LLMTaskResult :=
  if spec.enabled then
    let res := runLoop spec.maxRetries spec.retryDelay provider (spec.maxRetries + 1) 0
    ⟨spec.name, docId, res.status, res.retryCount, res.retryCount + 1, res.delays,
      .pending :: res.trace, res.output⟩
  else ⟨spec.name, docId, .skipped, 0, 0, [], [.pending, .skipped], none⟩

/-- Run one task over every document of a run. -/
def runAll (spec : LLMTaskSpec) (provider : Nat → Outcome) (docs : List Nat) :
    List LLMTaskResult :=
  docs.map (runTask spec provider)

/-- Total number of provider (network) calls a task issues across a run. -/
def totalCalls (results : List LLMTaskResult) : Nat :=
  (results.map LLMTaskResult.calls).sum

/-- The `document_classification` task spec from the LLM integration
configuration: `max_retries = 3`, `retry_delay = 2`, enabled. -/
def dcSpec : LLMTaskSpec :=
  ⟨"document_classification", true, "mistralai/Mixtral-8x7B-Instruct-v0.1", 1/10,
    1024, 60, 3, 2⟩

/-- The `content_summarization` task spec with its `enabled` flag turned
off, as in the disabled-task scenario. -/
def csSpecDisabled : LLMTaskSpec :=
  ⟨"content_summarization", false, "meta-llama/Llama-3-70b-chat-hf", 3/10,
    2048, 60, 3, 2⟩

/-- A provider that times out on attempts 1 and 2 and succeeds on
attempt 3. -/
def flakyProvider : Nat → Outcome :=
  fun n => if n < 2 then .transient else .success "ok"

theorem runLoop_spec (maxR delay : Nat) (provider : Nat → Outcome) :
    ∀ (fuel r : Nat), maxR - r < fuel → r ≤ maxR →
      ((runLoop maxR delay provider fuel r).status = .succeeded ∨
          (runLoop maxR delay provider fuel r).status = .failed) ∧
        r ≤ (runLoop maxR delay provider fuel r).retryCount ∧
        (runLoop maxR delay provider fuel r).retryCount ≤ maxR ∧
        (runLoop maxR delay provider fuel r).delays =
          List.replicate ((runLoop maxR delay provider fuel r).retryCount - r) delay ∧
        (runLoop maxR delay provider fuel r).trace =
          (List.replicate ((runLoop maxR delay provider fuel r).retryCount - r)
              [TaskState.inFlight, TaskState.retrying]).flatten ++
            [TaskState.inFlight, (runLoop maxR delay provider fuel r).status]
  | 0, r, hf, _ => absurd hf (by omega)
  | fuel + 1, r, hf, hr0 => by
      rcases hp : provider r with p | _ | _
      · simp [runLoop, hp]
        omega
      · by_cases hr : r < maxR
        · have ih := runLoop_spec maxR delay provider fuel (r + 1) (by omega) (by omega)
          simp only [runLoop, hp, if_pos hr]
          obtain ⟨ih1, ih2, ih3, ih4, ih5⟩ := ih
          refine ⟨ih1, by omega, ih3, ?_, ?_⟩
          · rw [ih4]
            have : (runLoop maxR delay provider fuel (r + 1)).retryCount - r =
                ((runLoop maxR delay provider fuel (r + 1)).retryCount - (r + 1)) + 1 := by
              omega
            rw [this, List.replicate_succ]
          · rw [ih5]
            have : (runLoop maxR delay provider fuel (r + 1)).retryCount - r =
                ((runLoop maxR delay provider fuel (r + 1)).retryCount - (r + 1)) + 1 := by
              omega
            rw [this, List.replicate_succ]
            simp
        · simp [runLoop, hp, if_neg hr]
          omega
      · simp [runLoop, hp]
        omega

/-- C6: for an enabled task, every transient failure below the retry
budget moves IN_FLIGHT to RETRYING and back to IN_FLIGHT after exactly
the fixed configured `retry_delay` (the inserted waits are
`retryCount` copies of `retry_delay` — fixed, not exponential — and the
visited trace is PENDING, then `retryCount` IN_FLIGHT/RETRYING rounds,
then a final IN_FLIGHT resolving to the terminal status).  In the
scenario — `document_classification` with `max_retries = 3`,
`retry_delay = 2`, timeouts on attempts 1 and 2, success on attempt 3 —
the result is SUCCEEDED with `retry_count = 2`, 3 calls and waits
`[2, 2]`. -/
theorem retry_state_machine :
    (∀ (spec : LLMTaskSpec) (provider : Nat → Outcome) (docId : Nat),
        spec.enabled = true →
        ((runTask spec provider docId).status = .succeeded ∨
            (runTask spec provider docId).status = .failed) ∧
          (runTask spec provider docId).retryCount ≤ spec.maxRetries ∧
          (runTask spec provider docId).calls =
            (runTask spec provider docId).retryCount + 1 ∧
          (runTask spec provider docId).delays =
            List.replicate (runTask spec provider docId).retryCount spec.retryDelay ∧
          (runTask spec provider docId).trace =
            .pending :: ((List.replicate (runTask spec provider docId).retryCount
                [TaskState.inFlight, TaskState.retrying]).flatten ++
              [TaskState.inFlight, (runTask spec provider docId).status])) ∧
      (runTask dcSpec flakyProvider 0).status = .succeeded ∧
      (runTask dcSpec flakyProvider 0).retryCount = 2 ∧
      (runTask dcSpec flakyProvider 0).calls = 3 ∧
      (runTask dcSpec flakyProvider 0).delays = [2, 2] := by
  constructor
  · intro spec provider docId hen
    have h := runLoop_spec spec.maxRetries spec.retryDelay provider
      (spec.maxRetries + 1) 0 (by omega) (by omega)
    obtain ⟨h1, _, h3, h4, h5⟩ := h
    have hres : runTask spec provider docId =
        ⟨spec.name, docId,
          (runLoop spec.maxRetries spec.retryDelay provider (spec.maxRetries + 1) 0).status,
          (runLoop spec.maxRetries spec.retryDelay provider (spec.maxRetries + 1) 0).retryCount,
          (runLoop spec.maxRetries spec.retryDelay provider (spec.maxRetries + 1) 0).retryCount + 1,
          (runLoop spec.maxRetries spec.retryDelay provider (spec.maxRetries + 1) 0).delays,
          .pending ::
            (runLoop spec.maxRetries spec.retryDelay provider (spec.maxRetries + 1) 0).trace,
          (runLoop spec.maxRetries spec.retryDelay provider (spec.maxRetries + 1) 0).output⟩ := by
      unfold runTask
      rw [hen]
      simp
    rw [hres]
    simp only [Nat.sub_zero] at h4 h5
    exact ⟨h1, h3, rfl, h4, by rw [h5]⟩
  · refine ⟨?_, ?_, ?_, ?_⟩ <;> rfl

/-- Witness instantiating the general retry theorem at the scenario task:
its waits are exactly `retryCount` copies of the configured fixed delay. -/
theorem retry_state_machine_witness :
    (runTask dcSpec flakyProvider 0).delays =
      List.replicate (runTask dcSpec flakyProvider 0).retryCount dcSpec.retryDelay :=
  (retry_state_machine.1 dcSpec flakyProvider 0 rfl).2.2.2.1

/-- C7: a task whose spec's `enabled` flag is false is never invoked: for
every document its result is SKIPPED with zero provider calls — the
enabled check precedes every other transition, so the trace goes straight
from PENDING to SKIPPED — and the whole run issues zero network calls for
the task. -/
theorem disabled_task_skipped (spec : LLMTaskSpec) (provider : Nat → Outcome)
    (docs : List Nat) (hdis : spec.enabled = false) :
    (∀ res ∈ runAll spec provider docs,
        res.status = .skipped ∧ res.calls = 0 ∧
          res.trace = [TaskState.pending, TaskState.skipped]) ∧
      totalCalls (runAll spec provider docs) = 0 := by
  have hone : ∀ d : Nat, runTask spec provider d =
      ⟨spec.name, d, .skipped, 0, 0, [], [.pending, .skipped], none⟩ := by
    intro d
    simp [runTask, hdis]
  constructor
  · intro res hres
    simp only [runAll, List.mem_map] at hres
    obtain ⟨d, _, rfl⟩ := hres
    rw [hone d]
    exact ⟨rfl, rfl, rfl⟩
  · induction docs with
    | nil => rfl
    | cons d t ih =>
        simp only [runAll, totalCalls, List.map_cons, List.sum_cons, hone d] at ih ⊢
        simpa using ih

/-- Witness for the disabled-task theorem: a three-document run of the
disabled `content_summarization` task issues zero network calls. -/
theorem disabled_task_skipped_witness :
    totalCalls (runAll csSpecDisabled flakyProvider [0, 1, 2]) = 0 :=
  (disabled_task_skipped csSpecDisabled flakyProvider [0, 1, 2] rfl).2

/-! ## Pipeline Coordinator -/

/-- The error kinds of the pipeline. -/
inductive ErrKind
  | extractionError
  | chunkingError
  | classificationUnderflow
  | llmProviderError
  | configError
deriving Repr, DecidableEq

/-- One output record per document: furthest status reached and any
captured per-document error. -/
structure Record where
  docId : Nat
  status : String
  errors : List (String × ErrKind)
deriving Repr, DecidableEq

/-- Modelled from the spec: drive one document through the named stages.
A stage-local error is captured — status FAILED with the failing
stage's name and error kind — and never raised; otherwise the status is
the last completed stage's name. -/
def runStages {α : Type} : List (String × (α → Except ErrKind α)) → α → String →
    String × List (String × ErrKind)
  | [], _, last => (last, [])
  | (name, f) :: rest, d, _ =>
      match f d with
      | .ok d' => runStages rest d' name
      | .error e => ("FAILED", [(name, e)])

/-- Process one document into its output record. -/
def processDoc {α : Type} (stages : List (String × (α → Except ErrKind α)))
    (docId : Nat) (d : α) : Record :=
  ⟨docId, (runStages stages d "DISCOVERED").1, (runStages stages d "DISCOVERED").2⟩

/-- Process a whole batch: one record per document. -/
def runBatch {α : Type} (stages : List (String × (α → Except ErrKind α)))
    (docs : List (Nat × α)) : List Record :=
  docs.map fun p => processDoc stages p.1 p.2

/-- Modelled from the spec: the raw configuration fields that need
validation at load time. -/
structure RawConfig where
  chunkStrategy : String
  taskNames : List String
deriving Repr, DecidableEq

/-- Modelled from the spec: configuration load; an unknown chunk strategy
or an unknown task name is a `ConfigError`. -/
def loadConfig (raw : RawConfig) : Except ErrKind RawConfig :=
  if raw.chunkStrategy = "section" ∨ raw.chunkStrategy = "paragraph" ∨
      raw.chunkStrategy = "heading" then
    if raw.taskNames.all fun t =>
        decide (t = "document_classification" ∨ t = "metadata_enhancement" ∨
          t = "content_summarization" ∨ t = "taxonomy_generation") then
      .ok raw
    else .error .configError
  else .error .configError

/-- Modelled from the spec: the CLI run — exit code 0 when the batch
completes (even with per-document failures recorded), non-zero only on a
configuration load failure. -/
def runPipeline {α : Type} (raw : RawConfig)
    (stages : List (String × (α → Except ErrKind α))) (docs : List (Nat × α)) :
    Nat × List Record :=
  match loadConfig raw with
  | .error _ => (1, [])
  | .ok _ => (0, runBatch stages docs)

/-- The concrete stage list of the batch-isolation scenario: extraction
fails for document 3, every other stage succeeds. -/
def demoStages : List (String × (Nat → Except ErrKind Nat)) :=
  [("EXTRACTED", fun d => if d = 3 then .error .extractionError else .ok d),
   ("CHUNKED", fun d => .ok d),
   ("METADATA_EXTRACTED", fun d => .ok d),
   ("CLASSIFIED", fun d => .ok d),
   ("ENRICHED", fun d => .ok d),
   ("PERSISTED", fun d => .ok d)]

/-- A valid raw configuration. -/
def demoConfig : RawConfig :=
  ⟨"section", ["document_classification", "content_summarization"]⟩

/-- The five-document batch of the scenario. -/
def demoDocs : List (Nat × Nat) := [(1, 1), (2, 2), (3, 3), (4, 4), (5, 5)]

/-- C8: a stage-local error is captured into that document's output
record and never raised past the coordinator: when configuration load
succeeds the run exits 0 and emits exactly one record per document;
only a `ConfigError` at load time produces a non-zero exit.  In the
scenario — five documents, document 3 raising `ExtractionError` —
documents 1, 2, 4, 5 reach PERSISTED, document 3's record is FAILED at
EXTRACTED with the error captured, and the exit code is 0. -/
theorem batch_isolation {α : Type} (raw : RawConfig)
    (stages : List (String × (α → Except ErrKind α))) (docs : List (Nat × α)) :
    (∀ cfg, loadConfig raw = .ok cfg →
        (runPipeline raw stages docs).1 = 0 ∧
          (runPipeline raw stages docs).2.length = docs.length ∧
          ∀ p ∈ docs, processDoc stages p.1 p.2 ∈ (runPipeline raw stages docs).2) ∧
      (∀ e, loadConfig raw = .error e → (runPipeline raw stages docs).1 = 1) ∧
      runPipeline demoConfig demoStages demoDocs =
        (0, [⟨1, "PERSISTED", []⟩, ⟨2, "PERSISTED", []⟩,
             ⟨3, "FAILED", [("EXTRACTED", .extractionError)]⟩,
             ⟨4, "PERSISTED", []⟩, ⟨5, "PERSISTED", []⟩]) := by
  refine ⟨?_, ?_, by decide⟩
  · intro cfg hok
    unfold runPipeline
    rw [hok]
    refine ⟨rfl, by simp [runBatch], ?_⟩
    intro p hp
    simp only [runBatch, List.mem_map]
    exact ⟨p, hp, rfl⟩
  · intro e herr
    unfold runPipeline
    rw [herr]

/-- Witness for the coordinator theorem: the scenario run exits 0 and
emits one record for each of its five documents. -/
theorem batch_isolation_witness :
    (runPipeline demoConfig demoStages demoDocs).1 = 0 ∧
      (runPipeline demoConfig demoStages demoDocs).2.length = demoDocs.length :=
  ⟨((batch_isolation demoConfig demoStages demoDocs).1 demoConfig rfl).1,
   ((batch_isolation demoConfig demoStages demoDocs).1 demoConfig rfl).2.1⟩

/-! ## Recent-documents reducer (rfp-management-system) -/

/-- The slice of the frontend `Document` type the reducer depends on. -/
structure Doc where
  id : String
  title : String
deriving Repr, DecidableEq

/-- `addRecentDocument` from
`src/store/slices/documentsSlice.ts`: prepend the new document, drop any
previous entry with the same id, and keep only the first 10. -/
def addRecentDocument (state : List Doc) (d : Doc) : List Doc :=
  (d :: state.filter fun x => decide (x.id ≠ d.id)).take 10

/-- Ten documents with pairwise-distinct ids, none equal to "x". -/
def tenDocs : List Doc :=
  [⟨"0", "t0"⟩, ⟨"1", "t1"⟩, ⟨"2", "t2"⟩, ⟨"3", "t3"⟩, ⟨"4", "t4"⟩,
   ⟨"5", "t5"⟩, ⟨"6", "t6"⟩, ⟨"7", "t7"⟩, ⟨"8", "t8"⟩, ⟨"9", "t9"⟩]

/-- A document whose id occurs nowhere in `tenDocs`. -/
def newDoc : Doc := ⟨"x", "tx"⟩

/-- C9 is refuted on the reducer: with a full (10-entry, distinct-id)
recent list and a fresh document, `.slice(0, 10)` drops the oldest
previous entry, so the remaining elements are not all the previous
entries with the new id removed. -/
theorem add_recent_document_counterexample :
    (addRecentDocument tenDocs newDoc).tail ≠
      tenDocs.filter fun x => decide (x.id ≠ newDoc.id) := by
  decide

/-- C9 (amended): for a recent list with pairwise-distinct ids and length
at most 10, `addRecentDocument` yields a list headed by the new document,
with pairwise-distinct ids and length at most 10, whose remaining
elements are the first **nine** of the previous entries with any entry
sharing the new id removed, in their original order (the tenth is dropped
by the size cap). -/
theorem add_recent_document_amended (state : List Doc) (d : Doc)
    (hnodup : (state.map Doc.id).Nodup) (_hlen : state.length ≤ 10) :
    (addRecentDocument state d).head? = some d ∧
      ((addRecentDocument state d).map Doc.id).Nodup ∧
      (addRecentDocument state d).length ≤ 10 ∧
      (addRecentDocument state d).tail =
        (state.filter fun x => decide (x.id ≠ d.id)).take 9 := by
  have hrw : addRecentDocument state d =
      d :: (state.filter fun x => decide (x.id ≠ d.id)).take 9 := by
    unfold addRecentDocument
    rw [List.take_succ_cons]
  rw [hrw]
  have hsub : ((state.filter fun x => decide (x.id ≠ d.id)).take 9).Sublist state :=
    (List.take_sublist _ _).trans (List.filter_sublist _)
  refine ⟨rfl, ?_, ?_, rfl⟩
  · rw [List.map_cons, List.nodup_cons]
    constructor
    · intro hmem
      rw [List.mem_map] at hmem
      obtain ⟨x, hx, hxid⟩ := hmem
      have hxf : x ∈ state.filter fun x => decide (x.id ≠ d.id) :=
        List.mem_of_mem_take hx
      have := List.of_mem_filter hxf
      simp only [decide_eq_true_eq] at this
      exact this hxid
    · exact (hsub.map Doc.id).nodup hnodup
  · simp only [List.length_cons]
    have := List.length_take_le 9 (state.filter fun x => decide (x.id ≠ d.id))
    omega

/-- Witness for the amended reducer theorem at a small concrete state. -/
theorem add_recent_document_amended_witness :
    (addRecentDocument [⟨"a", "ta"⟩] ⟨"b", "tb"⟩).head? = some ⟨"b", "tb"⟩ :=
  (add_recent_document_amended [⟨"a", "ta"⟩] ⟨"b", "tb"⟩ (by decide) (by decide)).1

/-! ## API client response interceptor (rfp-management-system) -/

/-- The body a server may attach to an error response. -/
structure ErrorResponseData where
  message : Option String
deriving Repr, DecidableEq

/-- The part of an axios error response the interceptor inspects. -/
structure AxiosResponse where
  status : Nat
  data : Option ErrorResponseData
deriving Repr, DecidableEq

/-- An axios error: the response is absent on network-level failures. -/
structure AxiosErrorModel where
  response : Option AxiosResponse
deriving Repr, DecidableEq

/-- The standardized rejection value built by the interceptor. -/
structure ErrorResult where
  message : String
  status : Option Nat
deriving Repr, DecidableEq

/-- The server-supplied message, if any (`error.response?.data?.message`). -/
def serverMessage (e : AxiosErrorModel) : Option String :=
  (e.response.bind AxiosResponse.data).bind ErrorResponseData.message

/-- The response error interceptor of
`src/api/client/apiClient.ts`: dispatch `logout` exactly when the
response status is 401, and reject with a standardized error whose
message is `errorData?.message || 'An unexpected error occurred'`
(JS `||`: an absent or empty server message falls back to the default). -/
def interceptError (e : AxiosErrorModel) : Bool × ErrorResult :=
  let dispatchLogout :=
    match e.response with
    | some r => decide (r.status = 401)
    | none => false
  let msg :=
    match serverMessage e with
    | some m => if m = "" then "An unexpected error occurred" else m
    | none => "An unexpected error occurred"
  (dispatchLogout, ⟨msg, e.response.map AxiosResponse.status⟩)

/-- C10: the interceptor always rejects with a non-empty message — the
server's message when a non-empty one is present, the fixed default
otherwise — and dispatches the logout action if and only if the
response's HTTP status is 401. -/
theorem interceptor_spec (e : AxiosErrorModel) :
    (interceptError e).2.message ≠ "" ∧
      (∀ m, serverMessage e = some m → m ≠ "" →
        (interceptError e).2.message = m) ∧
      ((serverMessage e = none ∨ serverMessage e = some "") →
        (interceptError e).2.message = "An unexpected error occurred") ∧
      ((interceptError e).1 = true ↔
        e.response.map AxiosResponse.status = some 401) := by
  refine ⟨?_, ?_, ?_, ?_⟩
  · rcases hm : serverMessage e with _ | m
    · simp [interceptError, hm]
      decide
    · by_cases hme : m = ""
      · simp [interceptError, hm, hme]
        decide
      · simp [interceptError, hm, hme]
  · intro m hm hme
    simp [interceptError, hm, hme]
  · rintro (hm | hm) <;> simp [interceptError, hm]
  · rcases hr : e.response with _ | r
    · simp [interceptError, hr]
    · simp [interceptError, hr]

/-- Witness for the interceptor theorem: a 401 response with message
"boom" rejects with that message and triggers the logout dispatch. -/
theorem interceptor_spec_witness :
    (interceptError ⟨some ⟨401, some ⟨some "boom"⟩⟩⟩).2.message = "boom" ∧
      (interceptError ⟨some ⟨401, some ⟨some "boom"⟩⟩⟩).1 = true :=
  ⟨(interceptor_spec ⟨some ⟨401, some ⟨some "boom"⟩⟩⟩).2.1 "boom" rfl (by decide),
   (interceptor_spec ⟨some ⟨401, some ⟨some "boom"⟩⟩⟩).2.2.2.mpr rfl⟩

end RFP
